import Mathlib

/-!
Shallow embedding of the metric diffing core of
`cmd/test-proxy/diff.go` and of the tag-merging helper
`plugins/sources/kstate/helper.go`.

Modelling conventions:
* Go strings are Lean `String`s.
* A Go `map[string]T` is modelled as an association list
  `List (String × T)` with unique keys maintained by `goInsert`
  (replace-or-append, matching Go's `m[k] = v`), and `goLookup`
  (first entry with the key, matching `m[k]` / `v, ok := m[k]`).
* `sort.Strings` sorts ascending in byte order; it is modelled by
  insertion sort over a structural character-list comparison
  (`strLe`).  For a total antisymmetric order the sorted permutation
  of a list is unique, so any correct sort is extensionally the same
  function; insertion sort is chosen because it evaluates by kernel
  reduction.
* A Go closure of type `func(*Metric) (bool, string)` is a Lean
  function `Metric → Bool × String`.
-/

/-- Byte-order comparison of character lists, modelling Go's `<=` on
strings as used by `sort.Strings` (inputs here are ASCII, where byte
order and character order agree). -/
def charsLe : List Char → List Char → Bool
  | [], _ => true
  | _ :: _, [] => false
  | a :: as, b :: bs =>
    if a.toNat < b.toNat then true
    else if b.toNat < a.toNat then false
    else charsLe as bs

/-- Go string ordering used by `sort.Strings`. -/
def strLe (a b : String) : Bool := charsLe a.data b.data

/-- `strLe` as a relation, for use with `List.insertionSort`. -/
def strLeProp (a b : String) : Prop := strLe a b = true

instance : DecidableRel strLeProp :=
  fun a b => inferInstanceAs (Decidable (strLe a b = true))

/-- A metric observation, as in `cmd/test-proxy` (`Name`, `Value`,
`Timestamp` strings and a tag map). -/
structure Metric where
  Name : String
  Value : String
  Timestamp : String
  Tags : List (String × String)
deriving DecidableEq

/-- Go map read `m[k]` together with the `ok` flag:
first entry with the given key. -/
def goLookup {α : Type} : List (String × α) → String → Option α
  | [], _ => none
  | p :: rest, k => if p.1 == k then some p.2 else goLookup rest k

/-- Go map write `m[k] = v`: replace the entry if the key is present,
otherwise add a new entry. -/
def goInsert {α : Type} : List (String × α) → String → α → List (String × α)
  | [], k, v => [(k, v)]
  | p :: rest, k, v =>
    if p.1 == k then (k, v) :: rest else p :: goInsert rest k v

/-- Go `metric.Tags[name]` (zero value `""` when absent). -/
def lookupTag (tags : List (String × String)) (name : String) : String :=
  (goLookup tags name).getD ""

/-- Go `_, exists := metric.Tags[name]`. -/
def hasTag (tags : List (String × String)) (name : String) : Bool :=
  (goLookup tags name).isSome

/-- `keyer` from diff.go: returns whether it could generate a key and
the key of the given metric. -/
abbrev Keyer : Type := Metric → Bool × String

/-- Go `fmt.Sprintf` verb `%#v` applied to a string (`strconv.Quote`):
the string in double quotes with quotes and backslashes escaped (other
escape classes do not arise for the inputs considered here). -/
def goQuote (s : String) : String :=
  "\"" ++ String.join (s.data.map (fun c =>
    if c = '\"' then "\\\""
    else if c = '\\' then "\\\\"
    else String.singleton c)) ++ "\""

/-- `strings.Join(keys, " ")`. -/
def joinSpace : List String → String
  | [] => ""
  | [s] => s
  | s :: t :: rest => s ++ " " ++ joinSpace (t :: rest)

/-- The loop body of `compositeKey`: evaluate the keyers in order,
collecting their keys, failing as soon as one does not match. -/
def runKeyers : List Keyer → Metric → Option (List String)
  | [], _ => some []
  | k :: ks, m =>
    let r := k m
    if r.1 then
      match runKeyers ks m with
      | some keys => some (r.2 :: keys)
      | none => none
    else none

/-- `compositeKey` from diff.go: matches when every sub-keyer matches,
with the space-joined sub-keys as key. -/
def compositeKey (keyers : List Keyer) : Keyer := fun metric =>
  match runKeyers keyers metric with
  | some keys => (true, joinSpace keys)
  | none => (false, "")

/-- `nameKey` from diff.go. -/
def nameKey (expected : String) : Keyer := fun metric =>
  (metric.Name == expected, metric.Name)

/-- `valueKey` from diff.go. -/
def valueKey (expected : String) : Keyer := fun metric =>
  (metric.Value == expected, metric.Value)

/-- `timestampKey` from diff.go. -/
def timestampKey (expected : String) : Keyer := fun metric =>
  (metric.Timestamp == expected, metric.Timestamp)

/-- `tagNameKey` from diff.go: the tag must be present, any value. -/
def tagNameKey (name : String) : Keyer := fun metric =>
  (hasTag metric.Tags name, name ++ "=*")

/-- `fullTagKey` from diff.go: the tag must have exactly this value. -/
def fullTagKey (name value : String) : Keyer := fun metric =>
  (lookupTag metric.Tags name == value,
   name ++ "=" ++ goQuote (lookupTag metric.Tags name))

/-- The sorted tag-name collection built at the start of `tagsKey`
(`for name := range tags` collects the key set, then `sort.Strings`). -/
def sortedTagNames (tags : List (String × String)) : List String :=
  ((tags.map Prod.fst).dedup).insertionSort strLeProp

/-- `tagsKey` from diff.go: one sub-keyer per tag name in sorted
order, presence-only for empty expected values. -/
def tagsKey (tags : List (String × String)) : Keyer :=
  compositeKey ((sortedTagNames tags).map (fun name =>
    if lookupTag tags name == "" then tagNameKey name
    else fullTagKey name (lookupTag tags name)))

/-- `metricKeyer` from diff.go: name always, value and timestamp only
when non-empty, tags always. -/
def metricKeyer (m : Metric) : Keyer :=
  compositeKey
    ([nameKey m.Name]
      ++ (if m.Value == "" then [] else [valueKey m.Value])
      ++ (if m.Timestamp == "" then [] else [timestampKey m.Timestamp])
      ++ [tagsKey m.Tags])

/-- The key a metric generates for itself (the fallback path of
`metricKeyMap`: `metricKeyer(metric)(metric)`). -/
def selfKey (m : Metric) : String := (metricKeyer m m).2

/-- `metricKeyers` from diff.go: the map from name to the keyers of
the expected metrics of that name, in input order (Go map of slices,
modelled as a total function defaulting to the empty list). -/
def metricKeyers (expected : List Metric) : String → List Keyer :=
  expected.foldl
    (fun acc m => fun name =>
      if name == m.Name then acc name ++ [metricKeyer m] else acc name)
    (fun _ => [])

/-- The inner loop of `metricKeyMap`: try each registered keyer in
order and stop at the first match. -/
def tryKeyers : List Keyer → Metric → Option String
  | [], _ => none
  | k :: ks, m =>
    let r := k m
    if r.1 then some r.2 else tryKeyers ks m

/-- The key `metricKeyMap` stores a metric under: the first matching
registered keyer's key, or the metric's own full key when none
matches. -/
def assignKey (keyers : String → List Keyer) (m : Metric) : String :=
  match tryKeyers (keyers m.Name) m with
  | some k => k
  | none => selfKey m

/-- `metricKeyMap` from diff.go. -/
def metricKeyMap (metrics : List Metric) (keyers : String → List Keyer) :
    List (String × Metric) :=
  metrics.foldl (fun keyMap m => goInsert keyMap (assignKey keyers m) m) []

/-- `disjunct` from diff.go: the entries of each map whose key is
absent from the other. -/
def disjunct (a b : List (String × Metric)) : List Metric × List Metric :=
  ((a.filter (fun p => (goLookup b p.1).isNone)).map Prod.snd,
   (b.filter (fun p => (goLookup a p.1).isNone)).map Prod.snd)

/-- `Diff` from diff.go. -/
structure Diff where
  Missing : List Metric
  Extra : List Metric
deriving DecidableEq

/-- `DiffMetrics` from diff.go. -/
def DiffMetrics (expected actual : List Metric) : Diff :=
  let keyers := metricKeyers expected
  let expectedKeyMap := metricKeyMap expected keyers
  let actualKeyMap := metricKeyMap actual keyers
  let d := disjunct expectedKeyMap actualKeyMap
  Diff.mk d.1 d.2

/-- `buildTags` from plugins/sources/kstate/helper.go: seed the map
with `tags[key] = name` and `tags["namespace_name"] = ns`, then copy
every entry of `srcTags` over it. -/
def buildTags (key name ns : String) (srcTags : List (String × String)) :
    List (String × String) :=
  srcTags.foldl (fun tags p => goInsert tags p.1 p.2)
    (goInsert (goInsert [] key name) "namespace_name" ns)

/-! ### Association-list (Go map) lemmas -/

theorem goLookup_goInsert {α : Type} (mp : List (String × α)) (k k' : String) (v : α) :
    goLookup (goInsert mp k v) k' = if k' = k then some v else goLookup mp k' := by
  induction mp with
  | nil =>
    simp only [goInsert, goLookup, beq_iff_eq]
    by_cases h : k' = k
    · subst h; simp
    · have h2 : ¬ k = k' := fun hh => h hh.symm
      simp [h, h2]
  | cons p rest ih =>
    simp only [goInsert]
    by_cases hp : p.1 = k
    · simp only [hp, beq_self_eq_true, if_true, goLookup, beq_iff_eq]
      by_cases hk : k' = k
      · subst hk; simp
      · have hk2 : ¬ k = k' := fun hh => hk hh.symm
        simp [hk, hk2, hp]
    · simp only [beq_iff_eq, hp, if_false, goLookup]
      by_cases hp' : p.1 = k'
      · have hne : ¬ k' = k := by
          intro hh
          exact hp (hp'.trans hh)
        simp [hp', hne]
      · simp [hp', ih]

theorem mem_goInsert {α : Type} (mp : List (String × α)) (k : String) (v : α)
    (p : String × α) (h : p ∈ goInsert mp k v) : p = (k, v) ∨ p ∈ mp := by
  induction mp with
  | nil => simpa [goInsert] using h
  | cons q rest ih =>
    simp only [goInsert] at h
    by_cases hq : q.1 = k
    · simp only [hq, beq_self_eq_true, if_true, List.mem_cons] at h
      rcases h with h | h
      · exact Or.inl h
      · exact Or.inr (List.mem_cons_of_mem _ h)
    · simp only [beq_iff_eq, hq, if_false, List.mem_cons] at h
      rcases h with h | h
      · exact Or.inr (by simp [h])
      · rcases ih h with h' | h'
        · exact Or.inl h'
        · exact Or.inr (List.mem_cons_of_mem _ h')

theorem goLookup_eq_some_mem {α : Type} (mp : List (String × α)) (k : String) (v : α)
    (h : goLookup mp k = some v) : (k, v) ∈ mp := by
  induction mp with
  | nil => simp [goLookup] at h
  | cons p rest ih =>
    simp only [goLookup] at h
    by_cases hp : p.1 = k
    · simp only [hp, beq_self_eq_true, if_true, Option.some.injEq] at h
      have hpk : p = (k, v) := by
        cases p with
        | mk a b => simp_all
      rw [← hpk]
      exact List.mem_cons_self _ _
    · simp only [beq_iff_eq, hp, if_false] at h
      exact List.mem_cons_of_mem _ (ih h)

theorem goLookup_mem_isSome {α : Type} (mp : List (String × α)) (k : String)
    (h : k ∈ mp.map Prod.fst) : (goLookup mp k).isSome = true := by
  induction mp with
  | nil => simp at h
  | cons p rest ih =>
    simp only [goLookup]
    by_cases hp : p.1 = k
    · simp [hp]
    · simp only [List.map_cons, List.mem_cons] at h
      rcases h with h | h
      · exact absurd h.symm hp
      · simpa [hp] using ih h

/-! ### metricKeyers: the per-name keyer lists are the expected
metrics of that name, in input order -/

theorem metricKeyers_foldl_apply (l : List Metric) (g : String → List Keyer)
    (name : String) :
    (l.foldl
      (fun acc m => fun n =>
        if n == m.Name then acc n ++ [metricKeyer m] else acc n) g) name
      = g name ++ (l.filter (fun e => e.Name == name)).map metricKeyer := by
  induction l generalizing g with
  | nil => simp
  | cons m t ih =>
    simp only [List.foldl_cons, ih, List.filter_cons]
    by_cases h : m.Name = name
    · simp [h]
    · have h' : ¬ name = m.Name := fun hh => h hh.symm
      simp [h, h']

theorem metricKeyers_apply (expected : List Metric) (name : String) :
    metricKeyers expected name
      = (expected.filter (fun e => e.Name == name)).map metricKeyer := by
  unfold metricKeyers
  rw [metricKeyers_foldl_apply]
  simp

theorem metricKeyers_eq_nil (expected : List Metric) (name : String)
    (h : ∀ e ∈ expected, e.Name ≠ name) : metricKeyers expected name = [] := by
  rw [metricKeyers_apply]
  have : expected.filter (fun e => e.Name == name) = [] := by
    rw [List.filter_eq_nil_iff]
    intro e he
    simpa using h e he
  simp [this]

theorem assignKey_of_no_keyers (keyers : String → List Keyer) (m : Metric)
    (h : keyers m.Name = []) : assignKey keyers m = selfKey m := by
  simp [assignKey, h, tryKeyers]

/-! ### metricKeyMap as a fold: lookup characterizations -/

theorem keyMap_foldl_untouched (keyers : String → List Keyer) (l : List Metric)
    (init : List (String × Metric)) (k : String)
    (h : ∀ m ∈ l, assignKey keyers m ≠ k) :
    goLookup (l.foldl (fun mp m => goInsert mp (assignKey keyers m) m) init) k
      = goLookup init k := by
  induction l generalizing init with
  | nil => simp
  | cons m t ih =>
    simp only [List.foldl_cons]
    rw [ih _ (fun a ha => h a (List.mem_cons_of_mem _ ha))]
    rw [goLookup_goInsert]
    have hne : assignKey keyers m ≠ k := h m (List.mem_cons_self _ _)
    have hne' : ¬ k = assignKey keyers m := fun hh => hne hh.symm
    simp [hne']

theorem keyMap_foldl_lookup_eq_some (keyers : String → List Keyer) (l : List Metric)
    (init : List (String × Metric)) (k : String) (v : Metric)
    (h : goLookup (l.foldl (fun mp m => goInsert mp (assignKey keyers m) m) init) k
          = some v) :
    (v ∈ l ∧ assignKey keyers v = k) ∨ goLookup init k = some v := by
  induction l generalizing init with
  | nil => exact Or.inr (by simpa using h)
  | cons m t ih =>
    simp only [List.foldl_cons] at h
    rcases ih _ h with h' | h'
    · exact Or.inl ⟨List.mem_cons_of_mem _ h'.1, h'.2⟩
    · rw [goLookup_goInsert] at h'
      by_cases hk : k = assignKey keyers m
      · simp only [hk, if_true, Option.some.injEq] at h'
        exact Or.inl ⟨h' ▸ List.mem_cons_self _ _, by rw [← h', hk]⟩
      · simp only [hk, if_false] at h'
        exact Or.inr h'

theorem keyMap_foldl_last_wins (keyers : String → List Keyer) (l : List Metric)
    (init : List (String × Metric)) (m : Metric)
    (hm : m ∈ l)
    (huniq : ∀ a ∈ l, assignKey keyers a = assignKey keyers m → a = m) :
    goLookup (l.foldl (fun mp m => goInsert mp (assignKey keyers m) m) init)
        (assignKey keyers m) = some m := by
  induction l generalizing init with
  | nil => simp at hm
  | cons x t ih =>
    simp only [List.foldl_cons]
    by_cases hmt : m ∈ t
    · exact ih _ hmt (fun a ha => huniq a (List.mem_cons_of_mem _ ha))
    · have hmx : m = x := by
        rcases List.mem_cons.mp hm with h | h
        · exact h
        · exact absurd h hmt
      have hall : ∀ a ∈ t, assignKey keyers a ≠ assignKey keyers m := by
        intro a ha heq
        exact hmt ((huniq a (List.mem_cons_of_mem _ ha) heq) ▸ ha)
      rw [keyMap_foldl_untouched keyers t _ _ hall, ← hmx, goLookup_goInsert]
      simp

theorem keyMap_foldl_isSome_mono (keyers : String → List Keyer) (l : List Metric)
    (init : List (String × Metric)) (k : String)
    (h : (goLookup init k).isSome = true) :
    (goLookup (l.foldl (fun mp m => goInsert mp (assignKey keyers m) m) init)
      k).isSome = true := by
  induction l generalizing init with
  | nil => simpa using h
  | cons m t ih =>
    simp only [List.foldl_cons]
    apply ih
    rw [goLookup_goInsert]
    by_cases hk : k = assignKey keyers m
    · simp [hk]
    · simpa [hk] using h

theorem keyMap_foldl_isSome (keyers : String → List Keyer) (l : List Metric)
    (init : List (String × Metric)) (m : Metric) (hm : m ∈ l) :
    (goLookup (l.foldl (fun mp m => goInsert mp (assignKey keyers m) m) init)
      (assignKey keyers m)).isSome = true := by
  induction l generalizing init with
  | nil => simp at hm
  | cons x t ih =>
    simp only [List.foldl_cons]
    by_cases hmt : m ∈ t
    · exact ih _ hmt
    · have hmx : m = x := by
        rcases List.mem_cons.mp hm with h | h
        · exact h
        · exact absurd h hmt
      apply keyMap_foldl_isSome_mono
      rw [← hmx, goLookup_goInsert]
      simp

theorem keyMap_foldl_entries (keyers : String → List Keyer) (l : List Metric)
    (init : List (String × Metric)) (p : String × Metric)
    (h : p ∈ l.foldl (fun mp m => goInsert mp (assignKey keyers m) m) init) :
    p ∈ init ∨ (p.2 ∈ l ∧ p.1 = assignKey keyers p.2) := by
  induction l generalizing init with
  | nil => exact Or.inl (by simpa using h)
  | cons m t ih =>
    simp only [List.foldl_cons] at h
    rcases ih _ h with h' | h'
    · rcases mem_goInsert _ _ _ _ h' with h'' | h''
      · refine Or.inr ⟨?_, ?_⟩
        · rw [h'']; exact List.mem_cons_self _ _
        · rw [h'']
      · exact Or.inl h''
    · exact Or.inr ⟨List.mem_cons_of_mem _ h'.1, h'.2⟩

/-! ### metricKeyMap specializations (fold started from the empty map) -/

theorem lookup_metricKeyMap_eq_some (l : List Metric) (keyers : String → List Keyer)
    (k : String) (v : Metric) (h : goLookup (metricKeyMap l keyers) k = some v) :
    v ∈ l ∧ assignKey keyers v = k := by
  rcases keyMap_foldl_lookup_eq_some keyers l [] k v h with h' | h'
  · exact h'
  · simp [goLookup] at h'

theorem lookup_metricKeyMap_of_absent (l : List Metric) (keyers : String → List Keyer)
    (k : String) (h : ∀ m ∈ l, assignKey keyers m ≠ k) :
    goLookup (metricKeyMap l keyers) k = none := by
  unfold metricKeyMap
  rw [keyMap_foldl_untouched keyers l [] k h]
  simp [goLookup]

theorem lookup_metricKeyMap_last (l : List Metric) (keyers : String → List Keyer)
    (m : Metric) (hm : m ∈ l)
    (huniq : ∀ a ∈ l, assignKey keyers a = assignKey keyers m → a = m) :
    goLookup (metricKeyMap l keyers) (assignKey keyers m) = some m :=
  keyMap_foldl_last_wins keyers l [] m hm huniq

theorem lookup_metricKeyMap_isSome (l : List Metric) (keyers : String → List Keyer)
    (m : Metric) (hm : m ∈ l) :
    (goLookup (metricKeyMap l keyers) (assignKey keyers m)).isSome = true :=
  keyMap_foldl_isSome keyers l [] m hm

theorem mem_metricKeyMap (l : List Metric) (keyers : String → List Keyer)
    (p : String × Metric) (h : p ∈ metricKeyMap l keyers) :
    p.2 ∈ l ∧ p.1 = assignKey keyers p.2 := by
  rcases keyMap_foldl_entries keyers l [] p h with h' | h'
  · simp at h'
  · exact h'

/-! ### disjunct membership -/

theorem mem_disjunct_fst (a b : List (String × Metric)) (x : Metric) :
    x ∈ (disjunct a b).1 ↔ ∃ k, (k, x) ∈ a ∧ goLookup b k = none := by
  simp only [disjunct, List.mem_map, List.mem_filter, Option.isNone_iff_eq_none]
  constructor
  · rintro ⟨p, ⟨hpa, hpb⟩, hpx⟩
    exact ⟨p.1, by rw [show (p.1, x) = p from by rw [← hpx]]; exact hpa, hpb⟩
  · rintro ⟨k, hka, hkb⟩
    exact ⟨(k, x), ⟨hka, hkb⟩, rfl⟩

theorem mem_disjunct_snd (a b : List (String × Metric)) (x : Metric) :
    x ∈ (disjunct a b).2 ↔ ∃ k, (k, x) ∈ b ∧ goLookup a k = none := by
  simp only [disjunct, List.mem_map, List.mem_filter, Option.isNone_iff_eq_none]
  constructor
  · rintro ⟨p, ⟨hpb, hpa⟩, hpx⟩
    exact ⟨p.1, by rw [show (p.1, x) = p from by rw [← hpx]]; exact hpb, hpa⟩
  · rintro ⟨k, hkb, hka⟩
    exact ⟨(k, x), ⟨hkb, hka⟩, rfl⟩

/-! ### The self-keyer always matches -/

theorem runKeyers_isSome_of_all (ks : List Keyer) (m : Metric)
    (h : ∀ k ∈ ks, (k m).1 = true) : (runKeyers ks m).isSome = true := by
  induction ks with
  | nil => simp [runKeyers]
  | cons k t ih =>
    have hk := h k (List.mem_cons_self _ _)
    have ht := ih (fun k' hk' => h k' (List.mem_cons_of_mem _ hk'))
    simp only [runKeyers, hk, if_true]
    rcases ho : runKeyers t m with _ | keys
    · rw [ho] at ht; simp at ht
    · simp

theorem compositeKey_matches_of_all (ks : List Keyer) (m : Metric)
    (h : ∀ k ∈ ks, (k m).1 = true) : (compositeKey ks m).1 = true := by
  have := runKeyers_isSome_of_all ks m h
  rcases ho : runKeyers ks m with _ | keys
  · rw [ho] at this; simp at this
  · simp [compositeKey, ho]

theorem mem_sortedTagNames (tags : List (String × String)) (name : String) :
    name ∈ sortedTagNames tags ↔ name ∈ tags.map Prod.fst := by
  unfold sortedTagNames
  rw [(List.perm_insertionSort strLeProp _).mem_iff]
  exact List.mem_dedup

theorem tagsKey_self_matches (m : Metric) : (tagsKey m.Tags m).1 = true := by
  apply compositeKey_matches_of_all
  intro k hk
  rcases List.mem_map.mp hk with ⟨name, hname, hkeq⟩
  have hmem : name ∈ m.Tags.map Prod.fst := (mem_sortedTagNames _ _).mp hname
  by_cases hv : lookupTag m.Tags name == ""
  · rw [← hkeq]
    simp only [hv, if_true, tagNameKey, hasTag]
    exact goLookup_mem_isSome _ _ hmem
  · rw [← hkeq]
    simp [hv, fullTagKey]

theorem metricKeyer_components_self (m : Metric) :
    ∀ k ∈ ([nameKey m.Name]
      ++ (if m.Value == "" then [] else [valueKey m.Value])
      ++ (if m.Timestamp == "" then [] else [timestampKey m.Timestamp])
      ++ [tagsKey m.Tags]), (k m).1 = true := by
  intro k hk
  simp only [List.append_assoc, List.mem_append, List.mem_singleton] at hk
  rcases hk with hk | hk | hk | hk
  · rw [hk]; simp [nameKey]
  · by_cases hv : m.Value == ""
    · simp [hv] at hk
    · simp only [hv, Bool.false_eq_true, if_false, List.mem_singleton] at hk
      rw [hk]; simp [valueKey]
  · by_cases ht : m.Timestamp == ""
    · simp [ht] at hk
    · simp only [ht, Bool.false_eq_true, if_false, List.mem_singleton] at hk
      rw [hk]; simp [timestampKey]
  · rw [hk]; exact tagsKey_self_matches m

theorem metricKeyer_self_matches (m : Metric) : (metricKeyer m m).1 = true :=
  compositeKey_matches_of_all _ m (metricKeyer_components_self m)

/-! ### Claim theorems -/

/-- C2: with the single expected metric `cpu.usage` constraining only the
presence of tag `pod`, the actual metric `cpu.usage` with `Value="42"`,
`Timestamp="1000"` and tags `pod=abc`, `node=n1` matches: `DiffMetrics`
returns empty `Missing` and `Extra` lists — the unconstrained value,
timestamp and `node` tag do not affect the match. -/
theorem c2_unconstrained_fields_tolerated :
    (DiffMetrics [Metric.mk "cpu.usage" "" "" [("pod", "")]]
      [Metric.mk "cpu.usage" "42" "1000" [("pod", "abc"), ("node", "n1")]]).Missing = []
    ∧ (DiffMetrics [Metric.mk "cpu.usage" "" "" [("pod", "")]]
      [Metric.mk "cpu.usage" "42" "1000" [("pod", "abc"), ("node", "n1")]]).Extra = [] := by
  decide

/-- C4: comparing any metric collection against itself yields a diff with
empty `Missing` and empty `Extra` lists. -/
theorem c4_diff_self_empty (C : List Metric) :
    (DiffMetrics C C).Missing = [] ∧ (DiffMetrics C C).Extra = [] := by
  have key : ∀ mp : List (String × Metric),
      (mp.filter (fun p => (goLookup mp p.1).isNone)) = [] := by
    intro mp
    rw [List.filter_eq_nil_iff]
    intro p hp
    have hmem : p.1 ∈ mp.map Prod.fst := List.mem_map.mpr ⟨p, hp, rfl⟩
    have := goLookup_mem_isSome mp p.1 hmem
    simp [Option.isNone_iff_eq_none]
    rcases ho : goLookup mp p.1 with _ | v
    · rw [ho] at this; simp at this
    · simp
  constructor
  · show ((disjunct (metricKeyMap C (metricKeyers C))
      (metricKeyMap C (metricKeyers C))).1 = [])
    simp [disjunct, key]
  · show ((disjunct (metricKeyMap C (metricKeyers C))
      (metricKeyMap C (metricKeyers C))).2 = [])
    simp [disjunct, key]

/-- C8: the self-keyer `metricKeyer m` always matches `m` itself, and
consequently `metricKeyMap` assigns a key to every metric of its input:
the map contains an entry under every input metric's assigned key. -/
theorem c8_self_keyer_always_matches (keyers : String → List Keyer)
    (metrics : List Metric) (m : Metric) (hm : m ∈ metrics) :
    (metricKeyer m m).1 = true
    ∧ (goLookup (metricKeyMap metrics keyers) (assignKey keyers m)).isSome = true :=
  ⟨metricKeyer_self_matches m, lookup_metricKeyMap_isSome metrics keyers m hm⟩

/-- Witness for C8 at a concrete metric and collection. -/
theorem c8_self_keyer_always_matches_witness :
    (metricKeyer (Metric.mk "mem" "1" "2" [("a", "b")])
      (Metric.mk "mem" "1" "2" [("a", "b")])).1 = true
    ∧ (goLookup
        (metricKeyMap [Metric.mk "mem" "1" "2" [("a", "b")]] (fun _ => []))
        (assignKey (fun _ => []) (Metric.mk "mem" "1" "2" [("a", "b")]))).isSome
        = true :=
  c8_self_keyer_always_matches (fun _ => [])
    [Metric.mk "mem" "1" "2" [("a", "b")]]
    (Metric.mk "mem" "1" "2" [("a", "b")]) (by decide)

/-- C9: every metric in `Missing` is one of the expected input metrics and
every metric in `Extra` is one of the actual input metrics: `DiffMetrics`
never fabricates a metric and never swaps sides. -/
theorem c9_results_come_from_inputs (expected actual : List Metric) :
    (∀ x ∈ (DiffMetrics expected actual).Missing, x ∈ expected)
    ∧ (∀ x ∈ (DiffMetrics expected actual).Extra, x ∈ actual) := by
  constructor
  · intro x hx
    have hx' : x ∈ (disjunct (metricKeyMap expected (metricKeyers expected))
        (metricKeyMap actual (metricKeyers expected))).1 := hx
    rcases (mem_disjunct_fst _ _ _).mp hx' with ⟨k, hk, _⟩
    exact (mem_metricKeyMap _ _ _ hk).1
  · intro x hx
    have hx' : x ∈ (disjunct (metricKeyMap expected (metricKeyers expected))
        (metricKeyMap actual (metricKeyers expected))).2 := hx
    rcases (mem_disjunct_snd _ _ _).mp hx' with ⟨k, hk, _⟩
    exact (mem_metricKeyMap _ _ _ hk).1

/-- Witness for C9: with one expected metric and no actual metrics the
expected metric is missing, and the theorem places it in the expected
input collection. -/
theorem c9_results_come_from_inputs_witness :
    Metric.mk "cpu" "" "" [] ∈ [Metric.mk "cpu" "" "" []] :=
  (c9_results_come_from_inputs [Metric.mk "cpu" "" "" []] []).1
    (Metric.mk "cpu" "" "" []) (by decide)

/-- C1 counterexample: the actual metric named `x` does not share a name
with any expected metric, yet it is absent from `Extra`: its fallback
self-key `x a=* b=*` coincides with the space-joined key of the expected
metric named `x a=*` with presence-tag `b`, so the two are treated as a
matched pair. -/
theorem c1_counterexample :
    (Metric.mk "x" "" "" [("a", ""), ("b", "")]) ∈
      [Metric.mk "x" "" "" [("a", ""), ("b", "")]]
    ∧ (∀ e ∈ [Metric.mk "x a=*" "" "" [("b", "")]],
        e.Name ≠ (Metric.mk "x" "" "" [("a", ""), ("b", "")]).Name)
    ∧ (Metric.mk "x" "" "" [("a", ""), ("b", "")]) ∉
        (DiffMetrics [Metric.mk "x a=*" "" "" [("b", "")]]
          [Metric.mk "x" "" "" [("a", ""), ("b", "")]]).Extra := by
  decide

/-- C1 (amended): an actual metric whose name is absent from the expected
names is keyed by its own full self-key; it appears in `Extra` provided
that key differs from the key assigned to every expected metric and no
other actual metric is assigned the same key (space-joined key strings of
metrics with different names can coincide, in which case the metric can be
silently matched or overwritten). -/
theorem c1_unregistered_name_lands_in_extra
    (expected actual : List Metric) (m : Metric)
    (hmem : m ∈ actual)
    (hname : ∀ e ∈ expected, e.Name ≠ m.Name)
    (hexp : ∀ e ∈ expected,
      assignKey (metricKeyers expected) e ≠ assignKey (metricKeyers expected) m)
    (hact : ∀ a ∈ actual,
      assignKey (metricKeyers expected) a = assignKey (metricKeyers expected) m
        → a = m) :
    assignKey (metricKeyers expected) m = selfKey m
    ∧ m ∈ (DiffMetrics expected actual).Extra := by
  refine ⟨?_, ?_⟩
  · exact assignKey_of_no_keyers _ m (metricKeyers_eq_nil expected m.Name hname)
  · have hlook : goLookup (metricKeyMap actual (metricKeyers expected))
        (assignKey (metricKeyers expected) m) = some m :=
      lookup_metricKeyMap_last actual (metricKeyers expected) m hmem hact
    have hkm : (assignKey (metricKeyers expected) m, m)
        ∈ metricKeyMap actual (metricKeyers expected) :=
      goLookup_eq_some_mem _ _ _ hlook
    have habs : goLookup (metricKeyMap expected (metricKeyers expected))
        (assignKey (metricKeyers expected) m) = none :=
      lookup_metricKeyMap_of_absent expected (metricKeyers expected) _ hexp
    show m ∈ (disjunct (metricKeyMap expected (metricKeyers expected))
      (metricKeyMap actual (metricKeyers expected))).2
    exact (mem_disjunct_snd _ _ _).mpr ⟨_, hkm, habs⟩

/-- Witness for the amended C1 at a concrete collision-free input. -/
theorem c1_unregistered_name_lands_in_extra_witness :
    assignKey (metricKeyers [Metric.mk "cpu" "" "" []])
        (Metric.mk "mem" "" "" []) = selfKey (Metric.mk "mem" "" "" [])
    ∧ (Metric.mk "mem" "" "" []) ∈
        (DiffMetrics [Metric.mk "cpu" "" "" []]
          [Metric.mk "mem" "" "" []]).Extra :=
  c1_unregistered_name_lands_in_extra
    [Metric.mk "cpu" "" "" []] [Metric.mk "mem" "" "" []]
    (Metric.mk "mem" "" "" [])
    (by decide) (by decide) (by decide) (by decide)

/-! ### Evaluation of composite keys -/

theorem runKeyers_none_of_mem_false (ks : List Keyer) (m : Metric) (k0 : Keyer)
    (hmem : k0 ∈ ks) (hfail : (k0 m).1 = false) : runKeyers ks m = none := by
  induction ks with
  | nil => simp at hmem
  | cons k t ih =>
    rcases List.mem_cons.mp hmem with h | h
    · rw [← h]
      simp [runKeyers, hfail]
    · by_cases hk : (k m).1 = true
      · simp only [runKeyers, hk, if_true, ih h]
      · simp only [runKeyers, Bool.not_eq_true] at hk ⊢
        simp [hk]

theorem compositeKey_fails_of_mem (ks : List Keyer) (m : Metric) (k0 : Keyer)
    (hmem : k0 ∈ ks) (hfail : (k0 m).1 = false) : (compositeKey ks m).1 = false := by
  simp [compositeKey, runKeyers_none_of_mem_false ks m k0 hmem hfail]

theorem runKeyers_eq_map_of_all (ks : List Keyer) (m : Metric)
    (h : ∀ k ∈ ks, (k m).1 = true) :
    runKeyers ks m = some (ks.map (fun k => (k m).2)) := by
  induction ks with
  | nil => simp [runKeyers]
  | cons k t ih =>
    have hk := h k (List.mem_cons_self _ _)
    have ht := ih (fun k' hk' => h k' (List.mem_cons_of_mem _ hk'))
    simp [runKeyers, hk, ht]

theorem compositeKey_key_of_all (ks : List Keyer) (m : Metric)
    (h : ∀ k ∈ ks, (k m).1 = true) :
    compositeKey ks m = (true, joinSpace (ks.map (fun k => (k m).2))) := by
  simp [compositeKey, runKeyers_eq_map_of_all ks m h]

/-- The full self-key of a metric, spelled out field by field. -/
theorem selfKey_eq (m : Metric) :
    selfKey m = joinSpace ([m.Name]
      ++ (if m.Value == "" then [] else [m.Value])
      ++ (if m.Timestamp == "" then [] else [m.Timestamp])
      ++ [(tagsKey m.Tags m).2]) := by
  unfold selfKey metricKeyer
  rw [compositeKey_key_of_all _ _ (metricKeyer_components_self m)]
  by_cases hv : m.Value == "" <;> by_cases ht : m.Timestamp == "" <;>
    simp [hv, ht, nameKey, valueKey, timestampKey]

/-- The evaluation of `tagsKey tags` on a metric depends only on the
metric's tag map. -/
theorem tagsKey_congr (tags : List (String × String)) (m1 m2 : Metric)
    (h : m1.Tags = m2.Tags) : tagsKey tags m1 = tagsKey tags m2 := by
  unfold tagsKey compositeKey
  have : ∀ names : List String,
      runKeyers (names.map (fun name =>
        if lookupTag tags name == "" then tagNameKey name
        else fullTagKey name (lookupTag tags name))) m1
      = runKeyers (names.map (fun name =>
        if lookupTag tags name == "" then tagNameKey name
        else fullTagKey name (lookupTag tags name))) m2 := by
    intro names
    induction names with
    | nil => rfl
    | cons n t ih =>
      simp only [List.map_cons, runKeyers]
      have hhead : (if lookupTag tags n == "" then tagNameKey n
          else fullTagKey n (lookupTag tags n)) m1
        = (if lookupTag tags n == "" then tagNameKey n
          else fullTagKey n (lookupTag tags n)) m2 := by
        by_cases hv : lookupTag tags n == "" <;>
          simp [hv, tagNameKey, fullTagKey, h]
      rw [hhead, ih]
  rw [this]

/-! ### String append cancellation and joinSpace injectivity -/

theorem str_append_cancel_left (n s t : String) (h : n ++ s = n ++ t) : s = t := by
  have hd := congrArg String.data h
  simp only [String.data_append] at hd
  exact String.ext (List.append_cancel_left hd)

theorem str_append_cancel_right (s t c : String) (h : s ++ c = t ++ c) : s = t := by
  have hd := congrArg String.data h
  simp only [String.data_append] at hd
  exact String.ext (List.append_cancel_right hd)

theorem joinSpace_cons_cons (s t : String) (rest : List String) :
    joinSpace (s :: t :: rest) = s ++ " " ++ joinSpace (t :: rest) := rfl

theorem joinSpace_second_ne (n x y : String) (rest : List String) (hne : x ≠ y) :
    joinSpace (n :: x :: rest) ≠ joinSpace (n :: y :: rest) := by
  intro h
  rw [joinSpace_cons_cons, joinSpace_cons_cons, String.append_assoc,
    String.append_assoc] at h
  have h2 := str_append_cancel_left _ _ _ (str_append_cancel_left _ _ _ h)
  cases rest with
  | nil => exact hne h2
  | cons r rs =>
    rw [joinSpace_cons_cons, joinSpace_cons_cons] at h2
    have h3 := str_append_cancel_right _ _ _ h2
    exact hne (str_append_cancel_right _ _ _ h3)

/-- Diffing one expected against one actual metric with distinct assigned
keys: the expected one is missing and the actual one is extra. -/
theorem diffMetrics_singletons (e a : Metric)
    (hne : assignKey (metricKeyers [e]) e ≠ assignKey (metricKeyers [e]) a) :
    (DiffMetrics [e] [a]).Missing = [e] ∧ (DiffMetrics [e] [a]).Extra = [a] := by
  have hmape : metricKeyMap [e] (metricKeyers [e])
      = [(assignKey (metricKeyers [e]) e, e)] := rfl
  have hmapa : metricKeyMap [a] (metricKeyers [e])
      = [(assignKey (metricKeyers [e]) a, a)] := rfl
  have h1 : goLookup [(assignKey (metricKeyers [e]) a, a)]
      (assignKey (metricKeyers [e]) e) = none := by
    have : ¬ (assignKey (metricKeyers [e]) a = assignKey (metricKeyers [e]) e) :=
      fun h => hne h.symm
    simp [goLookup, this]
  have h2 : goLookup [(assignKey (metricKeyers [e]) e, e)]
      (assignKey (metricKeyers [e]) a) = none := by
    simp [goLookup, hne]
  constructor
  · show (disjunct (metricKeyMap [e] (metricKeyers [e]))
      (metricKeyMap [a] (metricKeyers [e]))).1 = [e]
    rw [hmape, hmapa]
    simp [disjunct, h1]
  · show (disjunct (metricKeyMap [e] (metricKeyers [e]))
      (metricKeyMap [a] (metricKeyers [e]))).2 = [a]
    rw [hmape, hmapa]
    simp [disjunct, h2]

/-- C3: an expected metric constraining `Value="42"` against an actual
metric identical in every other field but with `Value="43"` produces
exactly one `Missing` entry (the expected metric) and exactly one
`Extra` entry (the actual metric): the two are assigned distinct keys. -/
theorem c3_value_mismatch_no_coalesce (e a : Metric)
    (hv : e.Value = "42")
    (ha : a = Metric.mk e.Name "43" e.Timestamp e.Tags) :
    (DiffMetrics [e] [a]).Missing = [e] ∧ (DiffMetrics [e] [a]).Extra = [a] := by
  subst ha
  have hkeyers : metricKeyers [e] e.Name = [metricKeyer e] := by
    rw [metricKeyers_apply]
    simp
  have hke : assignKey (metricKeyers [e]) e = selfKey e := by
    unfold assignKey
    rw [hkeyers]
    simp [tryKeyers, metricKeyer_self_matches e, selfKey]
  have hfail : (metricKeyer e (Metric.mk e.Name "43" e.Timestamp e.Tags)).1
      = false := by
    unfold metricKeyer
    apply compositeKey_fails_of_mem _ _ (valueKey e.Value)
    · simp [hv]
    · simp [valueKey, hv]
  have hka : assignKey (metricKeyers [e]) (Metric.mk e.Name "43" e.Timestamp e.Tags)
      = selfKey (Metric.mk e.Name "43" e.Timestamp e.Tags) := by
    unfold assignKey
    rw [show (Metric.mk e.Name "43" e.Timestamp e.Tags).Name = e.Name from rfl,
      hkeyers]
    simp [tryKeyers, hfail]
  have htag : (tagsKey e.Tags (Metric.mk e.Name "43" e.Timestamp e.Tags)).2
      = (tagsKey e.Tags e).2 :=
    congrArg Prod.snd (tagsKey_congr e.Tags _ e rfl)
  have hne : selfKey e ≠ selfKey (Metric.mk e.Name "43" e.Timestamp e.Tags) := by
    rw [selfKey_eq e, selfKey_eq (Metric.mk e.Name "43" e.Timestamp e.Tags)]
    show joinSpace _ ≠ joinSpace _
    rw [hv]
    by_cases ht : e.Timestamp == "" <;>
      · simp only [show (("42" : String) == "") = false from rfl,
          show (("43" : String) == "") = false from rfl, ht, if_false, if_true,
          Bool.false_eq_true, htag, List.cons_append, List.nil_append,
          List.singleton_append]
        exact joinSpace_second_ne _ _ _ _ (by decide)
  apply diffMetrics_singletons
  rw [hke, hka]
  exact hne

/-- Witness for C3 at a concrete pair of metrics. -/
theorem c3_value_mismatch_no_coalesce_witness :
    (DiffMetrics [Metric.mk "m" "42" "5" [("t", "u")]]
      [Metric.mk "m" "43" "5" [("t", "u")]]).Missing
      = [Metric.mk "m" "42" "5" [("t", "u")]]
    ∧ (DiffMetrics [Metric.mk "m" "42" "5" [("t", "u")]]
      [Metric.mk "m" "43" "5" [("t", "u")]]).Extra
      = [Metric.mk "m" "43" "5" [("t", "u")]] :=
  c3_value_mismatch_no_coalesce
    (Metric.mk "m" "42" "5" [("t", "u")])
    (Metric.mk "m" "43" "5" [("t", "u")])
    (by decide) (by decide)

/-! ### buildTags (kstate helper) -/

theorem tagsFold_untouched {α : Type} (l : List (String × α))
    (init : List (String × α)) (k : String) (h : k ∉ l.map Prod.fst) :
    goLookup (l.foldl (fun t p => goInsert t p.1 p.2) init) k = goLookup init k := by
  induction l generalizing init with
  | nil => simp
  | cons p t ih =>
    simp only [List.map_cons, List.mem_cons] at h
    push_neg at h
    simp only [List.foldl_cons]
    rw [ih _ h.2, goLookup_goInsert]
    simp [h.1]

theorem tagsFold_mem {α : Type} (l : List (String × α))
    (init : List (String × α)) (k : String) (v : α)
    (hnd : (l.map Prod.fst).Nodup) (hmem : (k, v) ∈ l) :
    goLookup (l.foldl (fun t p => goInsert t p.1 p.2) init) k = some v := by
  induction l generalizing init with
  | nil => simp at hmem
  | cons p t ih =>
    simp only [List.map_cons, List.nodup_cons] at hnd
    simp only [List.foldl_cons]
    by_cases hpk : p.1 = k
    · have hpv : p = (k, v) := by
        rcases List.mem_cons.mp hmem with h | h
        · exact h.symm
        · exfalso
          apply hnd.1
          rw [hpk]
          exact List.mem_map.mpr ⟨(k, v), h, rfl⟩
      have hk : k ∉ t.map Prod.fst := by
        rw [← hpk]; exact hnd.1
      rw [tagsFold_untouched t _ k hk, hpv, goLookup_goInsert]
      simp
    · have hmem' : (k, v) ∈ t := by
        rcases List.mem_cons.mp hmem with h | h
        · exact absurd (congrArg Prod.fst h.symm) hpk
        · exact h
      exact ih _ hnd.2 hmem'

/-- C10: in `buildTags`, entries of `srcTags` override the two injected
entries (`tags[key] = name` and `tags["namespace_name"] = ns`), and for
keys not present in `srcTags` the injected values remain (the
`namespace_name` write happening second, it wins when `key` is itself
`"namespace_name"`). -/
theorem c10_buildTags_src_precedence (key name ns : String)
    (srcTags : List (String × String))
    (hnd : (srcTags.map Prod.fst).Nodup) :
    (∀ k v, (k, v) ∈ srcTags →
      goLookup (buildTags key name ns srcTags) k = some v)
    ∧ (∀ k, k ∉ srcTags.map Prod.fst →
      goLookup (buildTags key name ns srcTags) k
        = if k = "namespace_name" then some ns
          else if k = key then some name else none) := by
  constructor
  · intro k v hmem
    exact tagsFold_mem srcTags _ k v hnd hmem
  · intro k hk
    unfold buildTags
    rw [tagsFold_untouched srcTags _ k hk, goLookup_goInsert, goLookup_goInsert]
    by_cases h1 : k = "namespace_name"
    · simp [h1]
    · by_cases h2 : k = key
      · simp [h1, h2, goLookup]
      · simp [h1, h2, goLookup]

/-- Witness for C10: a source tag named like the injected `key` entry
overrides the injected value. -/
theorem c10_buildTags_src_precedence_witness :
    goLookup (buildTags "pod" "p1" "ns1" [("pod", "override"), ("x", "y")]) "pod"
      = some "override" :=
  (c10_buildTags_src_precedence "pod" "p1" "ns1" [("pod", "override"), ("x", "y")]
    (by decide)).1 "pod" "override" (by decide)

/-! ### First-match-wins in the keyer loop -/

theorem tryKeyers_none_of_all_false (ks : List Keyer) (m : Metric)
    (h : ∀ k ∈ ks, (k m).1 = false) : tryKeyers ks m = none := by
  induction ks with
  | nil => rfl
  | cons k t ih =>
    have hk := h k (List.mem_cons_self _ _)
    simp only [tryKeyers, hk, Bool.false_eq_true, if_false]
    exact ih (fun k' hk' => h k' (List.mem_cons_of_mem _ hk'))

theorem tryKeyers_first_match (ks : List Keyer) (m : Metric) (i : Nat)
    (h : i < ks.length)
    (hi : ((ks.get ⟨i, h⟩) m).1 = true)
    (hearlier : ∀ j (hj : j < i), ((ks.get ⟨j, lt_trans hj h⟩) m).1 = false) :
    tryKeyers ks m = some ((ks.get ⟨i, h⟩) m).2 := by
  induction ks generalizing i with
  | nil => simp at h
  | cons k t ih =>
    cases i with
    | zero =>
      simp only [List.get] at hi ⊢
      simp [tryKeyers, hi]
    | succ j =>
      have hk : (k m).1 = false := by
        have := hearlier 0 (Nat.succ_pos j)
        simpa [List.get] using this
      simp only [tryKeyers, hk, Bool.false_eq_true, if_false]
      have hlen : j < t.length := Nat.lt_of_succ_lt_succ h
      have hj : ((t.get ⟨j, hlen⟩) m).1 = true := by
        simpa [List.get] using hi
      have hearlier2 : ∀ j2 (hj2 : j2 < j),
          ((t.get ⟨j2, lt_trans hj2 hlen⟩) m).1 = false := by
        intro j2 hj2
        have := hearlier (j2 + 1) (Nat.succ_lt_succ hj2)
        simpa [List.get] using this
      have := ih j hlen hj hearlier2
      simpa [List.get] using this

/-- C7: for a metric whose name has registered keyers, those keyers are
the keyers of the expected metrics of that name in input order; the key
recorded is the one of the first keyer that matches (all earlier
failing), and the full self-keyer is used exactly when every registered
keyer fails. -/
theorem c7_first_match_wins (expected : List Metric) (m : Metric) :
    (metricKeyers expected m.Name
      = (expected.filter (fun e => e.Name == m.Name)).map metricKeyer)
    ∧ (∀ i (h : i < (metricKeyers expected m.Name).length),
        (((metricKeyers expected m.Name).get ⟨i, h⟩) m).1 = true →
        (∀ j (hj : j < i),
          (((metricKeyers expected m.Name).get ⟨j, lt_trans hj h⟩) m).1 = false) →
        assignKey (metricKeyers expected) m
          = (((metricKeyers expected m.Name).get ⟨i, h⟩) m).2)
    ∧ ((∀ k ∈ metricKeyers expected m.Name, (k m).1 = false) →
        assignKey (metricKeyers expected) m = selfKey m) := by
  refine ⟨metricKeyers_apply expected m.Name, ?_, ?_⟩
  · intro i h hi hearlier
    unfold assignKey
    rw [tryKeyers_first_match _ m i h hi hearlier]
  · intro hall
    unfold assignKey
    rw [tryKeyers_none_of_all_false _ m hall]

/-- Witness for C7: with two expected variants of name `n`, the metric
matching only the second variant is assigned the second keyer's key. -/
theorem c7_first_match_wins_witness :
    assignKey (metricKeyers [Metric.mk "n" "1" "" [], Metric.mk "n" "2" "" []])
      (Metric.mk "n" "2" "" []) = "n 2 " := by
  have h := (c7_first_match_wins
    [Metric.mk "n" "1" "" [], Metric.mk "n" "2" "" []]
    (Metric.mk "n" "2" "" [])).2.1 1 (by decide) (by decide)
    (by decide)
  exact h.trans (by decide)

/-! ### Order properties of the string comparison -/

theorem char_eq_of_toNat_eq (c d : Char) (h : c.toNat = d.toNat) : c = d :=
  Char.ext (UInt32.toNat.inj h)

theorem charsLe_trans (a b c : List Char)
    (h1 : charsLe a b = true) (h2 : charsLe b c = true) : charsLe a c = true := by
  induction a generalizing b c with
  | nil => cases c <;> simp [charsLe]
  | cons x as ih =>
    cases b with
    | nil => simp [charsLe] at h1
    | cons y bs =>
      cases c with
      | nil => simp [charsLe] at h2
      | cons z cs =>
        simp only [charsLe] at h1 h2 ⊢
        by_cases hxy : x.toNat < y.toNat <;> by_cases hyz : y.toNat < z.toNat
        · simp [show x.toNat < z.toNat from lt_trans hxy hyz]
        · simp only [hyz, if_false] at h2
          by_cases hzy : z.toNat < y.toNat
          · simp [hzy] at h2
          · have hyz2 : y.toNat = z.toNat := le_antisymm (le_of_not_lt hzy) (le_of_not_lt hyz)
            simp [show x.toNat < z.toNat from hyz2 ▸ hxy]
        · simp only [hxy, if_false] at h1
          by_cases hyx : y.toNat < x.toNat
          · simp [hyx] at h1
          · have hxy2 : x.toNat = y.toNat := le_antisymm (le_of_not_lt hyx) (le_of_not_lt hxy)
            simp [show x.toNat < z.toNat from hxy2 ▸ hyz]
        · simp only [hxy, if_false] at h1
          simp only [hyz, if_false] at h2
          by_cases hyx : y.toNat < x.toNat
          · simp [hyx] at h1
          · by_cases hzy : z.toNat < y.toNat
            · simp [hzy] at h2
            · simp only [hyx, if_false] at h1
              simp only [hzy, if_false] at h2
              have hxz : ¬ x.toNat < z.toNat := by omega
              have hzx : ¬ z.toNat < x.toNat := by omega
              simp [hxz, hzx, ih bs cs h1 h2]

theorem charsLe_total (a b : List Char) :
    charsLe a b = true ∨ charsLe b a = true := by
  induction a generalizing b with
  | nil => left; simp [charsLe]
  | cons x as ih =>
    cases b with
    | nil => right; simp [charsLe]
    | cons y bs =>
      simp only [charsLe]
      by_cases hxy : x.toNat < y.toNat
      · left; simp [hxy]
      · by_cases hyx : y.toNat < x.toNat
        · right; simp [hyx]
        · rcases ih bs with h | h
          · left; simp [hxy, hyx, h]
          · right; simp [hxy, hyx, h]

theorem charsLe_antisymm (a b : List Char)
    (h1 : charsLe a b = true) (h2 : charsLe b a = true) : a = b := by
  induction a generalizing b with
  | nil =>
    cases b with
    | nil => rfl
    | cons y bs => simp [charsLe] at h2
  | cons x as ih =>
    cases b with
    | nil => simp [charsLe] at h1
    | cons y bs =>
      simp only [charsLe] at h1 h2
      by_cases hxy : x.toNat < y.toNat
      · have hyx : ¬ y.toNat < x.toNat := by omega
        simp [hyx, hxy] at h2
      · by_cases hyx : y.toNat < x.toNat
        · simp [hxy, hyx] at h1
        · simp only [hxy, hyx, if_false] at h1 h2
          have hx : x = y := char_eq_of_toNat_eq _ _ (by omega)
          rw [hx, ih bs h1 h2]

instance : IsTrans String strLeProp :=
  ⟨fun a b c h1 h2 => charsLe_trans a.data b.data c.data h1 h2⟩

instance : IsTotal String strLeProp :=
  ⟨fun a b => charsLe_total a.data b.data⟩

instance : IsAntisymm String strLeProp :=
  ⟨fun a b h1 h2 => String.ext (charsLe_antisymm a.data b.data h1 h2)⟩

/-! ### Tag order cannot influence generated keys -/

theorem goLookup_perm {α : Type} (l1 l2 : List (String × α)) (hperm : l1.Perm l2) :
    (l1.map Prod.fst).Nodup → ∀ n, goLookup l1 n = goLookup l2 n := by
  induction hperm with
  | nil => intro _ n; rfl
  | cons x _ ih =>
    intro hnd n
    simp only [List.map_cons, List.nodup_cons] at hnd
    simp only [goLookup]
    rw [ih hnd.2 n]
  | swap x y t =>
    intro hnd n
    have hxy : y.1 ≠ x.1 := by
      simp only [List.map_cons, List.nodup_cons, List.mem_cons] at hnd
      exact fun h => hnd.1 (Or.inl h)
    simp only [goLookup]
    by_cases h1 : y.1 == n <;> by_cases h2 : x.1 == n
    · exact absurd ((beq_iff_eq.mp h1).trans (beq_iff_eq.mp h2).symm) hxy
    · simp [h1, h2]
    · simp [h1, h2]
    · simp [h1, h2]
  | trans p1 _ ih1 ih2 =>
    intro hnd n
    rw [ih1 hnd n, ih2 ((p1.map Prod.fst).nodup_iff.mp hnd) n]

theorem sortedTagNames_perm (t1 t2 : List (String × String)) (hperm : t1.Perm t2)
    (hnd : (t1.map Prod.fst).Nodup) : sortedTagNames t1 = sortedTagNames t2 := by
  have hp : (t1.map Prod.fst).Perm (t2.map Prod.fst) := hperm.map _
  have hnd2 : (t2.map Prod.fst).Nodup := hp.nodup_iff.mp hnd
  unfold sortedTagNames
  rw [List.dedup_eq_self.mpr hnd, List.dedup_eq_self.mpr hnd2]
  apply List.eq_of_perm_of_sorted (r := strLeProp)
  · exact ((List.perm_insertionSort _ _).trans hp).trans
      (List.perm_insertionSort _ _).symm
  · exact List.sorted_insertionSort _ _
  · exact List.sorted_insertionSort _ _

theorem runKeyers_congr_eval (ks : List Keyer) (m1 m2 : Metric)
    (h : ∀ k ∈ ks, k m1 = k m2) : runKeyers ks m1 = runKeyers ks m2 := by
  induction ks with
  | nil => rfl
  | cons k t ih =>
    simp only [runKeyers]
    rw [h k (List.mem_cons_self _ _),
      ih (fun k' hk' => h k' (List.mem_cons_of_mem _ hk'))]

theorem tagsKey_perm_eval (m1 m2 : Metric) (hperm : m1.Tags.Perm m2.Tags)
    (hnd : (m1.Tags.map Prod.fst).Nodup) :
    tagsKey m1.Tags m1 = tagsKey m2.Tags m2 := by
  have hlook : ∀ n, goLookup m1.Tags n = goLookup m2.Tags n :=
    goLookup_perm _ _ hperm hnd
  have hlt : ∀ n, lookupTag m1.Tags n = lookupTag m2.Tags n := by
    intro n; unfold lookupTag; rw [hlook n]
  have hht : ∀ n, hasTag m1.Tags n = hasTag m2.Tags n := by
    intro n; unfold hasTag; rw [hlook n]
  unfold tagsKey
  rw [sortedTagNames_perm _ _ hperm hnd]
  have hmapeq : (sortedTagNames m2.Tags).map (fun name =>
        if lookupTag m1.Tags name == "" then tagNameKey name
        else fullTagKey name (lookupTag m1.Tags name))
      = (sortedTagNames m2.Tags).map (fun name =>
        if lookupTag m2.Tags name == "" then tagNameKey name
        else fullTagKey name (lookupTag m2.Tags name)) :=
    List.map_congr_left (fun name _ => by rw [hlt name])
  rw [hmapeq]
  have heval : runKeyers ((sortedTagNames m2.Tags).map (fun name =>
        if lookupTag m2.Tags name == "" then tagNameKey name
        else fullTagKey name (lookupTag m2.Tags name))) m1
      = runKeyers ((sortedTagNames m2.Tags).map (fun name =>
        if lookupTag m2.Tags name == "" then tagNameKey name
        else fullTagKey name (lookupTag m2.Tags name))) m2 := by
    apply runKeyers_congr_eval
    intro k hk
    rcases List.mem_map.mp hk with ⟨name, _, hkeq⟩
    rw [← hkeq]
    by_cases hc : lookupTag m2.Tags name == "" <;>
      simp [hc, tagNameKey, fullTagKey, hht name, hlt name]
  unfold compositeKey
  rw [heval]

/-- C6: two metrics equal in name, value and timestamp whose tag maps
hold the same name-to-value pairs (in any order) are assigned identical
composite self-keys: the tag portion of the key is built over tag names
in sorted order, so key generation does not depend on tag insertion or
iteration order. -/
theorem c6_tag_key_determinism (m1 m2 : Metric)
    (hn : m1.Name = m2.Name) (hv : m1.Value = m2.Value)
    (ht : m1.Timestamp = m2.Timestamp)
    (htags : m1.Tags.Perm m2.Tags)
    (hnd : (m1.Tags.map Prod.fst).Nodup) :
    selfKey m1 = selfKey m2 := by
  rw [selfKey_eq m1, selfKey_eq m2, hn, hv, ht,
    congrArg Prod.snd (tagsKey_perm_eval m1 m2 htags hnd)]

/-- Witness for C6 at two concrete metrics with reordered tags. -/
theorem c6_tag_key_determinism_witness :
    selfKey (Metric.mk "n" "v" "t" [("a", "1"), ("b", "")])
      = selfKey (Metric.mk "n" "v" "t" [("b", ""), ("a", "1")]) :=
  c6_tag_key_determinism
    (Metric.mk "n" "v" "t" [("a", "1"), ("b", "")])
    (Metric.mk "n" "v" "t" [("b", ""), ("a", "1")])
    (by decide) (by decide) (by decide) (by decide) (by decide)

/-! ### Order independence infrastructure -/

/-- The result of trying one expected metric's keyer against a metric. -/
def matchKey (e m : Metric) : Option String :=
  let r := metricKeyer e m
  if r.1 then some r.2 else none

theorem tryKeyers_map_none_iff (L : List Metric) (m : Metric) :
    tryKeyers (L.map metricKeyer) m = none ↔ ∀ e ∈ L, matchKey e m = none := by
  induction L with
  | nil => simp [tryKeyers]
  | cons e t ih =>
    simp only [List.map_cons, tryKeyers]
    by_cases hm : (metricKeyer e m).1
    · constructor
      · intro h; simp [hm] at h
      · intro h
        have := h e (List.mem_cons_self _ _)
        simp [matchKey, hm] at this
    · simp only [Bool.not_eq_true] at hm
      simp only [hm, Bool.false_eq_true, if_false]
      rw [ih]
      constructor
      · intro h e' he'
        rcases List.mem_cons.mp he' with h' | h'
        · rw [h']; simp [matchKey, hm]
        · exact h e' h'
      · intro h e' he'
        exact h e' (List.mem_cons_of_mem _ he')

theorem tryKeyers_map_some (L : List Metric) (m : Metric) (k : String)
    (h : tryKeyers (L.map metricKeyer) m = some k) :
    ∃ e ∈ L, matchKey e m = some k := by
  induction L with
  | nil => simp [tryKeyers] at h
  | cons e t ih =>
    simp only [List.map_cons, tryKeyers] at h
    by_cases hm : (metricKeyer e m).1
    · simp only [hm, if_true, Option.some.injEq] at h
      exact ⟨e, List.mem_cons_self _ _, by simp [matchKey, hm, h]⟩
    · simp only [Bool.not_eq_true] at hm
      simp only [hm, Bool.false_eq_true, if_false] at h
      rcases ih h with ⟨e0, he0, hk⟩
      exact ⟨e0, List.mem_cons_of_mem _ he0, hk⟩

theorem tryKeyers_map_some_of_mem (L : List Metric) (m : Metric) (k : String)
    (hu : ∀ e1 ∈ L, ∀ e2 ∈ L, (matchKey e1 m).isSome = true →
      (matchKey e2 m).isSome = true → matchKey e1 m = matchKey e2 m)
    (hex : ∃ e ∈ L, matchKey e m = some k) :
    tryKeyers (L.map metricKeyer) m = some k := by
  induction L with
  | nil => simp at hex
  | cons e t ih =>
    rcases hex with ⟨e0, he0, hk⟩
    simp only [List.map_cons, tryKeyers]
    by_cases hm : (metricKeyer e m).1
    · simp only [hm, if_true]
      have hme : matchKey e m = some (metricKeyer e m).2 := by simp [matchKey, hm]
      have := hu e (List.mem_cons_self _ _) e0 he0
        (by simp [hme]) (by simp [hk])
      rw [hme, hk] at this
      exact this
    · simp only [Bool.not_eq_true] at hm
      simp only [hm, Bool.false_eq_true, if_false]
      have he0t : e0 ∈ t := by
        rcases List.mem_cons.mp he0 with h' | h'
        · exfalso
          rw [h'] at hk
          simp [matchKey, hm] at hk
        · exact h'
      exact ih (fun e1 h1 e2 h2 => hu e1 (List.mem_cons_of_mem _ h1)
        e2 (List.mem_cons_of_mem _ h2)) ⟨e0, he0t, hk⟩

theorem assignKey_perm (expected expected2 : List Metric) (m : Metric)
    (hpe : expected.Perm expected2)
    (hu : ∀ e1 ∈ expected, ∀ e2 ∈ expected,
      e1.Name = m.Name → e2.Name = m.Name →
      (matchKey e1 m).isSome = true → (matchKey e2 m).isSome = true →
      matchKey e1 m = matchKey e2 m) :
    assignKey (metricKeyers expected2) m = assignKey (metricKeyers expected) m := by
  unfold assignKey
  rw [metricKeyers_apply, metricKeyers_apply]
  have hpermL : (expected.filter (fun e => e.Name == m.Name)).Perm
      (expected2.filter (fun e => e.Name == m.Name)) := hpe.filter _
  have huL : ∀ e1 ∈ expected.filter (fun e => e.Name == m.Name),
      ∀ e2 ∈ expected.filter (fun e => e.Name == m.Name),
      (matchKey e1 m).isSome = true → (matchKey e2 m).isSome = true →
      matchKey e1 m = matchKey e2 m := by
    intro e1 h1 e2 h2
    rw [List.mem_filter] at h1 h2
    exact hu e1 h1.1 e2 h2.1 (beq_iff_eq.mp h1.2) (beq_iff_eq.mp h2.2)
  have huL2 : ∀ e1 ∈ expected2.filter (fun e => e.Name == m.Name),
      ∀ e2 ∈ expected2.filter (fun e => e.Name == m.Name),
      (matchKey e1 m).isSome = true → (matchKey e2 m).isSome = true →
      matchKey e1 m = matchKey e2 m := by
    intro e1 h1 e2 h2
    exact huL e1 (hpermL.mem_iff.mpr h1) e2 (hpermL.mem_iff.mpr h2)
  rcases h : tryKeyers ((expected.filter (fun e => e.Name == m.Name)).map
      metricKeyer) m with _ | k
  · have hall := (tryKeyers_map_none_iff _ m).mp h
    have hall2 : ∀ e ∈ expected2.filter (fun e => e.Name == m.Name),
        matchKey e m = none := fun e he => hall e (hpermL.mem_iff.mpr he)
    rw [(tryKeyers_map_none_iff _ m).mpr hall2, h]
  · rcases tryKeyers_map_some _ _ _ h with ⟨e0, he0, hk⟩
    rw [tryKeyers_map_some_of_mem _ m k huL2 ⟨e0, hpermL.mem_iff.mp he0, hk⟩, h]

theorem mem_missing_iff (expected actual : List Metric)
    (hinjE : ∀ a ∈ expected, ∀ b ∈ expected,
      assignKey (metricKeyers expected) a = assignKey (metricKeyers expected) b
        → a = b)
    (x : Metric) :
    x ∈ (DiffMetrics expected actual).Missing ↔
      (x ∈ expected ∧ ∀ a ∈ actual,
        assignKey (metricKeyers expected) a ≠ assignKey (metricKeyers expected) x) := by
  constructor
  · intro hx
    have hx' : x ∈ (disjunct (metricKeyMap expected (metricKeyers expected))
        (metricKeyMap actual (metricKeyers expected))).1 := hx
    rcases (mem_disjunct_fst _ _ _).mp hx' with ⟨k, hk, hnone⟩
    have hmem := mem_metricKeyMap _ _ _ hk
    refine ⟨hmem.1, ?_⟩
    intro a ha heq
    have hs := lookup_metricKeyMap_isSome actual (metricKeyers expected) a ha
    rw [heq, ← hmem.2, hnone] at hs
    simp at hs
  · rintro ⟨hxe, hall⟩
    have hlook : goLookup (metricKeyMap expected (metricKeyers expected))
        (assignKey (metricKeyers expected) x) = some x :=
      lookup_metricKeyMap_last expected _ x hxe
        (fun a ha heq => hinjE a ha x hxe heq)
    have hk := goLookup_eq_some_mem _ _ _ hlook
    have hnone := lookup_metricKeyMap_of_absent actual (metricKeyers expected) _ hall
    exact (mem_disjunct_fst _ _ _).mpr ⟨_, hk, hnone⟩

theorem mem_extra_iff (expected actual : List Metric)
    (hinjA : ∀ a ∈ actual, ∀ b ∈ actual,
      assignKey (metricKeyers expected) a = assignKey (metricKeyers expected) b
        → a = b)
    (x : Metric) :
    x ∈ (DiffMetrics expected actual).Extra ↔
      (x ∈ actual ∧ ∀ e ∈ expected,
        assignKey (metricKeyers expected) e ≠ assignKey (metricKeyers expected) x) := by
  constructor
  · intro hx
    have hx' : x ∈ (disjunct (metricKeyMap expected (metricKeyers expected))
        (metricKeyMap actual (metricKeyers expected))).2 := hx
    rcases (mem_disjunct_snd _ _ _).mp hx' with ⟨k, hk, hnone⟩
    have hmem := mem_metricKeyMap _ _ _ hk
    refine ⟨hmem.1, ?_⟩
    intro e he heq
    have hs := lookup_metricKeyMap_isSome expected (metricKeyers expected) e he
    rw [heq, ← hmem.2, hnone] at hs
    simp at hs
  · rintro ⟨hxa, hall⟩
    have hlook : goLookup (metricKeyMap actual (metricKeyers expected))
        (assignKey (metricKeyers expected) x) = some x :=
      lookup_metricKeyMap_last actual _ x hxa
        (fun a ha heq => hinjA a ha x hxa heq)
    have hk := goLookup_eq_some_mem _ _ _ hlook
    have hnone := lookup_metricKeyMap_of_absent expected (metricKeyers expected) _ hall
    exact (mem_disjunct_snd _ _ _).mpr ⟨_, hk, hnone⟩

/-- C5: when every metric has an unambiguous match key among the expected
variants of its name and assigned keys are injective within each input
collection, permuting either input collection leaves the `Missing` and
`Extra` results unchanged as unordered collections. -/
theorem c5_order_independence (expected expected2 actual actual2 : List Metric)
    (hpe : expected.Perm expected2) (hpa : actual.Perm actual2)
    (hunamb : ∀ m ∈ expected ++ actual, ∀ e1 ∈ expected, ∀ e2 ∈ expected,
      e1.Name = m.Name → e2.Name = m.Name →
      (matchKey e1 m).isSome = true → (matchKey e2 m).isSome = true →
      matchKey e1 m = matchKey e2 m)
    (hinjE : ∀ a ∈ expected, ∀ b ∈ expected,
      assignKey (metricKeyers expected) a = assignKey (metricKeyers expected) b
        → a = b)
    (hinjA : ∀ a ∈ actual, ∀ b ∈ actual,
      assignKey (metricKeyers expected) a = assignKey (metricKeyers expected) b
        → a = b) :
    (∀ x, x ∈ (DiffMetrics expected actual).Missing ↔
      x ∈ (DiffMetrics expected2 actual2).Missing)
    ∧ (∀ x, x ∈ (DiffMetrics expected actual).Extra ↔
      x ∈ (DiffMetrics expected2 actual2).Extra) := by
  have hkey : ∀ m ∈ expected ++ actual,
      assignKey (metricKeyers expected2) m = assignKey (metricKeyers expected) m :=
    fun m hm => assignKey_perm expected expected2 m hpe (hunamb m hm)
  have hmemE : ∀ y : Metric, y ∈ expected ↔ y ∈ expected2 := fun _ => hpe.mem_iff
  have hmemA : ∀ y : Metric, y ∈ actual ↔ y ∈ actual2 := fun _ => hpa.mem_iff
  have hkeyE : ∀ y ∈ expected,
      assignKey (metricKeyers expected2) y = assignKey (metricKeyers expected) y :=
    fun y hy => hkey y (List.mem_append_left _ hy)
  have hkeyA : ∀ y ∈ actual,
      assignKey (metricKeyers expected2) y = assignKey (metricKeyers expected) y :=
    fun y hy => hkey y (List.mem_append_right _ hy)
  have hinjE2 : ∀ a ∈ expected2, ∀ b ∈ expected2,
      assignKey (metricKeyers expected2) a = assignKey (metricKeyers expected2) b
        → a = b := by
    intro a ha b hb heq
    have ha' := (hmemE a).mpr ha
    have hb' := (hmemE b).mpr hb
    rw [hkeyE a ha', hkeyE b hb'] at heq
    exact hinjE a ha' b hb' heq
  have hinjA2 : ∀ a ∈ actual2, ∀ b ∈ actual2,
      assignKey (metricKeyers expected2) a = assignKey (metricKeyers expected2) b
        → a = b := by
    intro a ha b hb heq
    have ha' := (hmemA a).mpr ha
    have hb' := (hmemA b).mpr hb
    rw [hkeyA a ha', hkeyA b hb'] at heq
    exact hinjA a ha' b hb' heq
  constructor
  · intro x
    rw [mem_missing_iff expected actual hinjE x,
      mem_missing_iff expected2 actual2 hinjE2 x]
    constructor
    · rintro ⟨hxe, hall⟩
      refine ⟨(hmemE x).mp hxe, ?_⟩
      intro a ha heq
      have ha' := (hmemA a).mpr ha
      rw [hkeyA a ha', hkeyE x hxe] at heq
      exact hall a ha' heq
    · rintro ⟨hxe2, hall2⟩
      have hxe := (hmemE x).mpr hxe2
      refine ⟨hxe, ?_⟩
      intro a ha heq
      apply hall2 a ((hmemA a).mp ha)
      rw [hkeyA a ha, hkeyE x hxe]
      exact heq
  · intro x
    rw [mem_extra_iff expected actual hinjA x,
      mem_extra_iff expected2 actual2 hinjA2 x]
    constructor
    · rintro ⟨hxa, hall⟩
      refine ⟨(hmemA x).mp hxa, ?_⟩
      intro e he heq
      have he' := (hmemE e).mpr he
      rw [hkeyE e he', hkeyA x hxa] at heq
      exact hall e he' heq
    · rintro ⟨hxa2, hall2⟩
      have hxa := (hmemA x).mpr hxa2
      refine ⟨hxa, ?_⟩
      intro e he heq
      apply hall2 e ((hmemE e).mp he)
      rw [hkeyE e he, hkeyA x hxa]
      exact heq

/-- Witness for C5: the missing status of a concrete metric survives
reversing both input collections. -/
theorem c5_order_independence_witness :
    Metric.mk "cpu" "" "" [] ∈
      (DiffMetrics [Metric.mk "cpu" "" "" [], Metric.mk "mem" "" "" []]
        [Metric.mk "disk" "" "" [], Metric.mk "net" "" "" []]).Missing
    ↔ Metric.mk "cpu" "" "" [] ∈
      (DiffMetrics [Metric.mk "mem" "" "" [], Metric.mk "cpu" "" "" []]
        [Metric.mk "net" "" "" [], Metric.mk "disk" "" "" []]).Missing :=
  (c5_order_independence
    [Metric.mk "cpu" "" "" [], Metric.mk "mem" "" "" []]
    [Metric.mk "mem" "" "" [], Metric.mk "cpu" "" "" []]
    [Metric.mk "disk" "" "" [], Metric.mk "net" "" "" []]
    [Metric.mk "net" "" "" [], Metric.mk "disk" "" "" []]
    (by decide) (by decide) (by decide) (by decide) (by decide)).1
    (Metric.mk "cpu" "" "" [])
